import Mathlib

/-!
# Verification of the spaced-repetition review scheduler

Shallow embedding of the review-scheduling core of `src/database.py`
(`update_review_schedule`, `get_due_reviews`, `get_review_stats`'s streak
loop, `get_success_rate`, and the `get_connection` transaction wrapper),
together with theorems checking the natural-language specification.

Modelling conventions:
* Calendar dates are days-since-epoch naturals (the code only adds
  `timedelta(days=n)` to dates and compares/equates ISO date strings,
  operations faithfully mirrored by `Nat` addition, `≤` and `=`).
* The `review_schedule` SQLite table (primary key `problem_id`) is a list of
  records in insertion order; the `INSERT ... ON CONFLICT(problem_id) DO
  UPDATE` statement is `upsert`, which overwrites the record with a matching
  key or appends a fresh one.
* `date.today()`, read inside `update_review_schedule` and the query
  functions, is the ambient clock made explicit as a `today` argument of the
  model.
* The unused `ease_factor` column (never read, never updated by any code
  path) is omitted from the record.
-/

/-- One row of the `review_schedule` table (`database.py`, schema lines
56-63), without the dead `ease_factor` column.  `last_reviewed` is written
on every insert/update by `update_review_schedule`, the table's only
writer, so it is modelled as always present. -/
structure Sched where
  problem_id : String
  next_review_date : Nat
  interval_days : Nat
  last_reviewed : Nat
deriving DecidableEq, Repr

/-- One row of the `submissions` table as `get_success_rate` sees it:
the problem key and the nullable `passed` boolean. -/
structure Submission where
  problem_id : String
  passed : Option Bool
deriving DecidableEq, Repr

/-- The `review_schedule` table: rows in insertion order. -/
abbrev Store := List Sched

/-- `SELECT * FROM review_schedule WHERE problem_id = ?` (first and, for the
primary-keyed table, only match). -/
def lookupSched (st : Store) (pid : String) : Option Sched :=
  st.find? (fun s => s.problem_id == pid)

/-- `INSERT INTO review_schedule ... ON CONFLICT(problem_id) DO UPDATE SET
next_review_date = excluded..., interval_days = excluded...,
last_reviewed = excluded...` (database.py lines 223-231): overwrite the row
with the same key, or append a new row. -/
def upsert (st : Store) (r : Sched) : Store :=
  if st.any (fun s => s.problem_id == r.problem_id) then
    st.map (fun s => if s.problem_id == r.problem_id then r else s)
  else
    st ++ [r]

/-- The interval computation of `update_review_schedule`
(database.py lines 209-219). -/
def nextInterval (row : Option Sched) (success : Bool) : Nat :=
  if success then
    match row with
    | none => 1
    | some r =>
      if r.interval_days == 1 then 3
      else if r.interval_days == 3 then 7
      else r.interval_days * 2
  else 1

/-- `update_review_schedule(problem_id, success)` (database.py lines
196-233).  `today` is the value of the internal `date.today()` call made
explicit.  Returns the updated table together with the dict
`{next_review_date, interval_days}` the function returns. -/
def update_review_schedule (st : Store) (problem_id : String) (success : Bool)
    (today : Nat) : Store × Nat × Nat :=
  let row := lookupSched st problem_id
  let interval_days := nextInterval row success
  let next_review := today + interval_days
  (upsert st ⟨problem_id, next_review, interval_days, today⟩,
   next_review, interval_days)

/-- `get_due_reviews()` (database.py lines 236-249):
`WHERE rs.next_review_date <= today ORDER BY rs.next_review_date ASC`.
The join with `problems` only recovers the row each `problem_id` references
(a foreign key, with `PRAGMA foreign_keys=ON`), so the model returns the
schedule rows themselves, filtered and sorted by due date. -/
def get_due_reviews (st : Store) (today : Nat) : List Sched :=
  List.insertionSort (fun a b => a.next_review_date ≤ b.next_review_date)
    (st.filter (fun s => s.next_review_date ≤ today))

/-- `SELECT COUNT(*) FROM review_schedule WHERE last_reviewed = ?` is
nonzero: some row was last reviewed on day `d`. -/
def hasReview (st : Store) (d : Nat) : Bool :=
  st.any (fun s => s.last_reviewed == d)

/-- The streak loop of `get_review_stats` (database.py lines 286-297):
starting at `today`, count consecutive days with at least one
`last_reviewed` match, stopping at the first day with none.  Recursion on
the day number: day `0` is the epoch, before which no date exists (all
`last_reviewed` values are naturals), so the walk below day `0` finds no
match and stops. -/
def streak (st : Store) : Nat → Nat
  | 0 => if hasReview st 0 then 1 else 0
  | d + 1 => if hasReview st (d + 1) then 1 + streak st d else 0

/-- `get_success_rate(problem_id)` (database.py lines 332-341):
`SELECT COUNT(*), SUM(CASE WHEN passed = 1 THEN 1 ELSE 0 END) FROM
submissions WHERE problem_id = ? AND passed IS NOT NULL`, returned as
`(passed_count, total_graded_count)`. -/
def get_success_rate (subs : List Submission) (pid : String) : Nat × Nat :=
  let graded := subs.filter (fun s => s.problem_id == pid && s.passed.isSome)
  (graded.countP (fun s => s.passed == some true), graded.length)

/-- The `get_connection` context manager (database.py lines 15-28) run
around a transaction body: on success the connection commits (the body's
final state persists), on an exception it rolls back (the pre-transaction
state persists) and re-raises the same exception. -/
def get_connection {σ ε α : Type} (body : σ → Except ε (σ × α)) (st : σ) :
    Except ε α × σ :=
  match body st with
  | .ok (st2, a) => (.ok a, st2)
  | .error e => (.error e, st)

/-- Stores reachable from the empty table by `update_review_schedule`
calls, the table's only writer. -/
inductive Reachable : Store → Prop
  | empty : Reachable []
  | step {st : Store} (pid : String) (success : Bool) (today : Nat) :
      Reachable st → Reachable (update_review_schedule st pid success today).1

/-- `interval_days` values the spec allows: the fixed sequence 1, 3, 7,
then repeated doubling. -/
def validInterval (n : Nat) : Prop :=
  n = 1 ∨ n = 3 ∨ ∃ k, n = 7 * 2 ^ k

/-- `n` successful reviews of `pid` in a row, starting from the empty
table. -/
def iterSuccess (pid : String) (today : Nat) : Nat → Store
  | 0 => []
  | n + 1 => (update_review_schedule (iterSuccess pid today n) pid true today).1

/-- The `interval_days` returned by the `(n+1)`-st consecutive successful
review of a fresh problem. -/
def nthSuccessInterval (pid : String) (today : Nat) (n : Nat) : Nat :=
  (update_review_schedule (iterSuccess pid today n) pid true today).2.2

/-- The parameters of `update_review_schedule` as declared in the source
(`def update_review_schedule(problem_id: str, success: bool)`,
database.py line 196): the current date is not among them; it is obtained
inside the body by calling `date.today()` (line 201). -/
def updateReviewScheduleParams : List String := ["problem_id", "success"]

section Helpers

/-- Replacing every key-matching row by `r` makes `r` the first key match,
provided some row matched. -/
theorem find?_map_replace (r : Sched) (l : List Sched)
    (h : l.any (fun s => s.problem_id == r.problem_id) = true) :
    (l.map (fun s => if s.problem_id == r.problem_id then r else s)).find?
      (fun s => s.problem_id == r.problem_id) = some r := by
  induction l with
  | nil => simp at h
  | cons s t ih =>
    by_cases hs : s.problem_id = r.problem_id
    · simp [hs]
    · have hb : (s.problem_id == r.problem_id) = false := by simpa using hs
      rw [List.any_cons, hb, Bool.false_or] at h
      rw [List.map_cons, if_neg (by simp [hb])]
      rw [List.find?_cons_of_neg _ (by simp [hb])]
      exact ih h

/-- After `upsert st r`, looking up `r`'s key yields exactly `r`. -/
theorem lookupSched_upsert_self (st : Store) (r : Sched) :
    lookupSched (upsert st r) r.problem_id = some r := by
  unfold upsert lookupSched
  by_cases h : st.any (fun s => s.problem_id == r.problem_id)
  · rw [if_pos h]
    exact find?_map_replace r st h
  · rw [if_neg h, List.find?_append]
    have hnone : st.find? (fun s => s.problem_id == r.problem_id) = none := by
      rw [List.find?_eq_none]
      intro x hx hpx
      exact h (List.any_eq_true.mpr ⟨x, hx, hpx⟩)
    simp [hnone]

/-- Any row of `upsert st r` is an old row of `st` or the new row `r`. -/
theorem mem_upsert {st : Store} {r x : Sched} (hx : x ∈ upsert st r) :
    x ∈ st ∨ x = r := by
  unfold upsert at hx
  by_cases h : st.any (fun s => s.problem_id == r.problem_id)
  · rw [if_pos h] at hx
    rcases List.mem_map.mp hx with ⟨s, hs, he⟩
    by_cases hsp : s.problem_id = r.problem_id
    · right
      rw [← he]
      simp [hsp]
    · left
      rw [← he]
      simpa [hsp] using hs
  · rw [if_neg h] at hx
    rcases List.mem_append.mp hx with h1 | h1
    · exact Or.inl h1
    · right
      simpa using h1

/-- A row of `upsert st r` carrying `r`'s key is `r` itself. -/
theorem eq_of_mem_upsert_of_pid {st : Store} {r x : Sched}
    (hx : x ∈ upsert st r) (hpid : x.problem_id = r.problem_id) : x = r := by
  unfold upsert at hx
  by_cases h : st.any (fun s => s.problem_id == r.problem_id)
  · rw [if_pos h] at hx
    rcases List.mem_map.mp hx with ⟨s, _, he⟩
    by_cases hsp : s.problem_id = r.problem_id
    · rw [← he]
      simp [hsp]
    · rw [← he] at hpid
      simp [hsp] at hpid
  · rw [if_neg h] at hx
    rcases List.mem_append.mp hx with h1 | h1
    · exact absurd (List.any_eq_true.mpr ⟨x, h1, by simpa using hpid⟩) h
    · simpa using h1

end Helpers

/-- Closed form of the success-interval progression: 1, 3, 7, then
repeated doubling. -/
def successSeq (n : Nat) : Nat :=
  if n = 0 then 1 else if n = 1 then 3 else 7 * 2 ^ (n - 2)

theorem successSeq_ge_seven {n : Nat} (h : 2 ≤ n) : 7 ≤ successSeq n := by
  have h0 : n ≠ 0 := by omega
  have h1 : n ≠ 1 := by omega
  have hp : 1 ≤ 2 ^ (n - 2) := Nat.one_le_pow _ _ (by norm_num)
  simp only [successSeq, if_neg h0, if_neg h1]
  omega

theorem successSeq_add_two (m : Nat) : successSeq (m + 2) = 7 * 2 ^ m := by
  simp only [successSeq]
  rw [if_neg (by omega), if_neg (by omega), show m + 2 - 2 = m from by omega]

theorem nextInterval_successSeq (r : Sched) (n : Nat)
    (h : r.interval_days = successSeq n) :
    nextInterval (some r) true = successSeq (n + 1) := by
  show (if r.interval_days == 1 then 3
    else if r.interval_days == 3 then 7 else r.interval_days * 2) =
    successSeq (n + 1)
  match n with
  | 0 =>
    simp only [successSeq, if_pos rfl] at h
    simp [h, successSeq]
  | 1 =>
    simp only [successSeq] at h
    norm_num at h
    simp [h, successSeq]
  | m + 2 =>
    have hge : 7 ≤ r.interval_days := h ▸ successSeq_ge_seven (by omega)
    have b1 : (r.interval_days == 1) = false := by
      simpa using (by omega : r.interval_days ≠ 1)
    have b3 : (r.interval_days == 3) = false := by
      simpa using (by omega : r.interval_days ≠ 3)
    rw [b1, b3]
    simp only [Bool.false_eq_true, if_false]
    rw [h, successSeq_add_two, show m + 2 + 1 = m + 1 + 2 from by omega,
      successSeq_add_two, pow_succ]
    ring

theorem iterSuccess_lookup (pid : String) (today : Nat) :
    ∀ n, lookupSched (iterSuccess pid today n) pid =
      (match n with
       | 0 => none
       | m + 1 => some ⟨pid, today + successSeq m, successSeq m, today⟩) := by
  intro n
  induction n with
  | zero => rfl
  | succ m ih =>
    have hint : nextInterval (lookupSched (iterSuccess pid today m) pid) true =
        successSeq m := by
      match m with
      | 0 =>
        rw [ih]
        rfl
      | k + 1 =>
        rw [ih]
        exact nextInterval_successSeq _ k rfl
    have hstep : iterSuccess pid today (m + 1) =
        upsert (iterSuccess pid today m)
          ⟨pid, today + successSeq m, successSeq m, today⟩ := by
      show (update_review_schedule (iterSuccess pid today m) pid true today).1 = _
      simp only [update_review_schedule]
      rw [hint]
    rw [hstep]
    exact lookupSched_upsert_self _ _

theorem nthSuccessInterval_eq (pid : String) (today : Nat) (n : Nat) :
    nthSuccessInterval pid today n = successSeq n := by
  show nextInterval (lookupSched (iterSuccess pid today n) pid) true = successSeq n
  match n with
  | 0 =>
    rw [iterSuccess_lookup]
    rfl
  | m + 1 =>
    rw [iterSuccess_lookup]
    exact nextInterval_successSeq _ m rfl

theorem successSeq_double {n : Nat} (h : 2 ≤ n) :
    successSeq (n + 1) = 2 * successSeq n := by
  match n, h with
  | m + 2, _ =>
    rw [show m + 2 + 1 = m + 1 + 2 from by omega, successSeq_add_two,
      successSeq_add_two, pow_succ]
    ring

/-- C2: a successful outcome maps: no prior record to 1, prior interval 1
to 3, prior interval 3 to 7, and any other prior interval to its double;
hence repeated successes on a fresh problem return intervals
1, 3, 7, then doubling (1, 3, 7, 14, 28, 56, ...). -/
theorem success_interval_progression :
    nextInterval none true = 1 ∧
    (∀ r : Sched, r.interval_days = 1 → nextInterval (some r) true = 3) ∧
    (∀ r : Sched, r.interval_days = 3 → nextInterval (some r) true = 7) ∧
    (∀ r : Sched, r.interval_days ≠ 1 → r.interval_days ≠ 3 →
      nextInterval (some r) true = r.interval_days * 2) ∧
    (∀ pid today,
      nthSuccessInterval pid today 0 = 1 ∧
      nthSuccessInterval pid today 1 = 3 ∧
      nthSuccessInterval pid today 2 = 7 ∧
      ∀ n, 2 ≤ n → nthSuccessInterval pid today (n + 1) =
        2 * nthSuccessInterval pid today n) := by
  refine ⟨rfl, ?_, ?_, ?_, ?_⟩
  · intro r h
    simp [nextInterval, h]
  · intro r h
    simp [nextInterval, h]
  · intro r h1 h3
    have b1 : (r.interval_days == 1) = false := by simpa using h1
    have b3 : (r.interval_days == 3) = false := by simpa using h3
    simp [nextInterval, b1, b3]
  · intro pid today
    refine ⟨by simp [nthSuccessInterval_eq, successSeq],
      by simp [nthSuccessInterval_eq, successSeq],
      by simp [nthSuccessInterval_eq, successSeq], ?_⟩
    intro n hn
    rw [nthSuccessInterval_eq, nthSuccessInterval_eq]
    exact successSeq_double hn

/-- C2 witness: the progression rules evaluated at concrete records, and
the fourth success doubling the third interval (7 to 14). -/
theorem success_interval_progression_witness :
    nextInterval (some ⟨"p", 2, 1, 0⟩) true = 3 ∧
    nextInterval (some ⟨"p", 4, 3, 0⟩) true = 7 ∧
    nextInterval (some ⟨"p", 8, 7, 0⟩) true = 14 ∧
    nthSuccessInterval "p" 0 3 = 2 * nthSuccessInterval "p" 0 2 :=
  ⟨success_interval_progression.2.1 _ rfl,
   success_interval_progression.2.2.1 _ rfl,
   success_interval_progression.2.2.2.1 _ (by decide) (by decide),
   (success_interval_progression.2.2.2.2 "p" 0).2.2.2 2 (by decide)⟩

/-- C1: for every prior state (including no prior record), a failing
outcome stores and returns `interval_days = 1` and
`next_review_date = today + 1`, independent of the prior interval. -/
theorem failure_resets_interval (st : Store) (pid : String) (today : Nat) :
    (update_review_schedule st pid false today).2.2 = 1 ∧
    (update_review_schedule st pid false today).2.1 = today + 1 ∧
    lookupSched (update_review_schedule st pid false today).1 pid =
      some ⟨pid, today + 1, 1, today⟩ :=
  ⟨rfl, rfl, lookupSched_upsert_self st ⟨pid, today + 1, 1, today⟩⟩

theorem nextInterval_valid {row : Option Sched} (success : Bool)
    (h : ∀ r, row = some r → validInterval r.interval_days) :
    validInterval (nextInterval row success) := by
  cases success with
  | false => exact Or.inl rfl
  | true =>
    cases row with
    | none => exact Or.inl rfl
    | some r =>
      have hv := h r rfl
      show validInterval (if r.interval_days == 1 then 3
        else if r.interval_days == 3 then 7 else r.interval_days * 2)
      by_cases h1 : r.interval_days = 1
      · rw [if_pos (by simpa using h1)]
        exact Or.inr (Or.inl rfl)
      · rw [if_neg (by simpa using h1)]
        by_cases h3 : r.interval_days = 3
        · rw [if_pos (by simpa using h3)]
          exact Or.inr (Or.inr ⟨0, rfl⟩)
        · rw [if_neg (by simpa using h3)]
          rcases hv with hv | hv | ⟨k, hk⟩
          · exact absurd hv h1
          · exact absurd hv h3
          · exact Or.inr (Or.inr ⟨k + 1, by rw [hk, pow_succ]; ring⟩)

/-- In every store reachable from the empty table, each stored
`interval_days` belongs to the fixed sequence. -/
theorem reachable_intervals_valid {st : Store} (h : Reachable st) :
    ∀ r ∈ st, validInterval r.interval_days := by
  induction h with
  | empty =>
    intro r hr
    simp at hr
  | step pid success today hst ih =>
    intro r hr
    have hr2 : r ∈ upsert _
        ⟨pid, _ + nextInterval (lookupSched _ pid) success,
         nextInterval (lookupSched _ pid) success, _⟩ := hr
    rcases mem_upsert hr2 with h1 | h1
    · exact ih r h1
    · rw [h1]
      exact nextInterval_valid success
        (fun p hp => ih p (List.mem_of_find?_eq_some hp))

theorem validInterval_pos {n : Nat} (h : validInterval n) : 1 ≤ n := by
  rcases h with h | h | ⟨k, hk⟩
  · omega
  · omega
  · have : 1 ≤ 2 ^ k := Nat.one_le_pow _ _ (by norm_num)
    omega

/-- C3: in every schedule record reachable by any sequence of
`update_review_schedule` calls from the empty store, `interval_days` is a
member of the fixed sequence 1, 3, 7, 14, 28, 56, ... (1, 3, 7, then
repeated doubling). -/
theorem reachable_interval_in_sequence {st : Store} (h : Reachable st) :
    ∀ r ∈ st, validInterval r.interval_days :=
  reachable_intervals_valid h

/-- C3 witness: the store after one successful review of a fresh problem
is reachable and its single record's interval, 1, is in the sequence. -/
theorem reachable_interval_in_sequence_witness :
    validInterval (Sched.mk "p" 1 1 0).interval_days :=
  reachable_interval_in_sequence
    (Reachable.step "p" true 0 Reachable.empty) ⟨"p", 1, 1, 0⟩ (by decide)

/-- C4: every `update_review_schedule` call writes `next_review_date`,
`interval_days` and `last_reviewed` together as one record replace
(`upsert`), and the stored record then satisfies
`next_review_date = last_reviewed + interval_days` with
`last_reviewed = today`. -/
theorem update_record_atomic_consistent (st : Store) (pid : String)
    (success : Bool) (today : Nat) :
    ∃ r : Sched,
      (update_review_schedule st pid success today).1 = upsert st r ∧
      lookupSched (update_review_schedule st pid success today).1 pid = some r ∧
      r.problem_id = pid ∧
      r.next_review_date = r.last_reviewed + r.interval_days ∧
      r.last_reviewed = today :=
  ⟨⟨pid, today + nextInterval (lookupSched st pid) success,
    nextInterval (lookupSched st pid) success, today⟩,
   rfl, lookupSched_upsert_self st _, rfl, rfl, rfl⟩

/-- A row is in the due list exactly when it is stored and due. -/
theorem mem_due_iff {st : Store} {today : Nat} {r : Sched} :
    r ∈ get_due_reviews st today ↔ r ∈ st ∧ r.next_review_date ≤ today := by
  unfold get_due_reviews
  rw [(List.perm_insertionSort _ _).mem_iff]
  simp [List.mem_filter]

/-- C10: immediately after any `update_review_schedule` on a reachable
store, the stored `next_review_date` for the reviewed problem is at least
`today + 1`, so that problem is absent from `get_due_reviews` run the same
day, whatever the outcome. -/
theorem just_reviewed_not_due {st : Store} (h : Reachable st) (pid : String)
    (success : Bool) (today : Nat) :
    (∃ r : Sched,
      lookupSched (update_review_schedule st pid success today).1 pid = some r ∧
      today + 1 ≤ r.next_review_date) ∧
    ∀ r ∈ get_due_reviews (update_review_schedule st pid success today).1 today,
      r.problem_id ≠ pid := by
  have hpos : 1 ≤ nextInterval (lookupSched st pid) success :=
    validInterval_pos (nextInterval_valid success
      (fun p hp => reachable_intervals_valid h p (List.mem_of_find?_eq_some hp)))
  constructor
  · exact ⟨_, lookupSched_upsert_self st
      ⟨pid, today + nextInterval (lookupSched st pid) success,
       nextInterval (lookupSched st pid) success, today⟩, by simpa using hpos⟩
  · intro r hr hpid
    rcases mem_due_iff.mp hr with ⟨hmem, hle⟩
    have hmem2 : r ∈ upsert st
        ⟨pid, today + nextInterval (lookupSched st pid) success,
         nextInterval (lookupSched st pid) success, today⟩ := hmem
    have heq := eq_of_mem_upsert_of_pid hmem2 hpid
    rw [heq] at hle
    simp at hle
    omega

/-- C10 witness: recording a failure on a fresh problem on day 5 stores
`next_review_date = 6` and keeps the problem out of that day's due list. -/
theorem just_reviewed_not_due_witness :
    (∃ r : Sched,
      lookupSched (update_review_schedule [] "p" false 5).1 "p" = some r ∧
      5 + 1 ≤ r.next_review_date) ∧
    ∀ r ∈ get_due_reviews (update_review_schedule [] "p" false 5).1 5,
      r.problem_id ≠ "p" :=
  just_reviewed_not_due Reachable.empty "p" false 5

/-- C5: `get_due_reviews` returns exactly the stored rows with
`next_review_date <= today` (every such row included, all others
excluded, empty when no schedules exist), ordered ascending by
`next_review_date`. -/
theorem due_reviews_correct (st : Store) (today : Nat) :
    (∀ r : Sched, r ∈ get_due_reviews st today ↔
      r ∈ st ∧ r.next_review_date ≤ today) ∧
    List.Sorted (fun a b : Sched => a.next_review_date ≤ b.next_review_date)
      (get_due_reviews st today) ∧
    get_due_reviews [] today = [] := by
  refine ⟨fun r => mem_due_iff, ?_, rfl⟩
  haveI : IsTotal Sched (fun a b => a.next_review_date ≤ b.next_review_date) :=
    ⟨fun a b => Nat.le_total _ _⟩
  haveI : IsTrans Sched (fun a b => a.next_review_date ≤ b.next_review_date) :=
    ⟨fun _ _ _ hab hbc => Nat.le_trans hab hbc⟩
  exact List.sorted_insertionSort _ _

theorem streak_zero_of_no_review {st : Store} {today : Nat}
    (h : hasReview st today = false) : streak st today = 0 := by
  cases today <;> simp [streak, h]

theorem hasReview_of_lt_streak (st : Store) :
    ∀ today, ∀ k < streak st today, hasReview st (today - k) = true := by
  intro today
  induction today with
  | zero =>
    intro k hk
    by_cases h : hasReview st 0 = true
    · simp only [streak, if_pos h] at hk
      have : k = 0 := by omega
      simpa [this] using h
    · simp only [streak, if_neg h] at hk
      omega
  | succ d ih =>
    intro k hk
    by_cases h : hasReview st (d + 1) = true
    · simp only [streak, if_pos h] at hk
      match k with
      | 0 => simpa using h
      | j + 1 =>
        have hj : j < streak st d := by omega
        simpa [Nat.succ_sub_succ] using ih j hj
    · simp only [streak, if_neg h] at hk
      omega

theorem streak_gap (st : Store) :
    ∀ today, streak st today ≤ today →
      hasReview st (today - streak st today) = false := by
  intro today
  induction today with
  | zero =>
    intro h
    by_cases hr : hasReview st 0 = true
    · simp [streak, hr] at h
    · simp only [streak, if_neg hr]
      simpa using hr
  | succ d ih =>
    intro h
    by_cases hr : hasReview st (d + 1) = true
    · simp only [streak, if_pos hr] at h ⊢
      rw [show d + 1 - (1 + streak st d) = d - streak st d from by omega]
      exact ih (by omega)
    · simp only [streak, if_neg hr]
      simpa using hr

theorem streak_le_succ (st : Store) : ∀ today, streak st today ≤ today + 1 := by
  intro today
  induction today with
  | zero =>
    by_cases h : hasReview st 0 = true
    · simp [streak, h]
    · simp [streak, h]
  | succ d ih =>
    by_cases h : hasReview st (d + 1) = true
    · simp [streak, h]
      omega
    · simp [streak, h]

/-- C6: the streak loop returns the number of consecutive calendar days
ending at `today` that each have at least one record last reviewed that
day: 0 when today has no match, every day inside the streak has a match,
the first day beyond the streak has none (the walk never crosses a gap),
and no longer run of matched consecutive days ending today exists. -/
theorem streak_correct (st : Store) (today : Nat) :
    (hasReview st today = false → streak st today = 0) ∧
    (∀ k < streak st today, hasReview st (today - k) = true) ∧
    (streak st today ≤ today → hasReview st (today - streak st today) = false) ∧
    streak st today ≤ today + 1 ∧
    (∀ N ≤ today + 1, (∀ k < N, hasReview st (today - k) = true) →
      N ≤ streak st today) := by
  refine ⟨streak_zero_of_no_review, hasReview_of_lt_streak st today,
    streak_gap st today, streak_le_succ st today, ?_⟩
  intro N hN hall
  by_contra hlt
  push_neg at hlt
  have h1 : streak st today ≤ today := by omega
  have h2 := streak_gap st today h1
  have h3 := hall (streak st today) (by omega)
  simp [h3] at h2

/-- C6 witness: store with reviews on days 5 and 4; on day 5 the streak is
2, day 3 has no match, and the run of length 2 is attained. -/
theorem streak_correct_witness :
    (hasReview [Sched.mk "p" 6 1 5, Sched.mk "q" 7 3 4]
      (5 - streak [Sched.mk "p" 6 1 5, Sched.mk "q" 7 3 4] 5) = false) ∧
    2 ≤ streak [Sched.mk "p" 6 1 5, Sched.mk "q" 7 3 4] 5 :=
  ⟨(streak_correct [Sched.mk "p" 6 1 5, Sched.mk "q" 7 3 4] 5).2.2.1
      (by decide),
   (streak_correct [Sched.mk "p" 6 1 5, Sched.mk "q" 7 3 4] 5).2.2.2.2 2
      (by decide) (by decide)⟩

/-- C7: `get_success_rate` returns the pair (submissions of the problem
with a passing verdict, submissions of the problem with any known
verdict), ungraded submissions counting in neither; on history
[pass, fail, pass] it returns (2, 3), on [ungraded] it returns (0, 0). -/
theorem success_rate_counts (subs : List Submission) (pid : String) :
    ((get_success_rate subs pid).1 =
      (subs.filter (fun s => s.problem_id == pid && s.passed == some true)).length ∧
    (get_success_rate subs pid).2 =
      (subs.filter (fun s => s.problem_id == pid && s.passed.isSome)).length) ∧
    get_success_rate [⟨"p", some true⟩, ⟨"p", some false⟩, ⟨"p", some true⟩] "p"
      = (2, 3) ∧
    get_success_rate [⟨"p", none⟩] "p" = (0, 0) := by
  refine ⟨⟨?_, rfl⟩, by decide, by decide⟩
  show (subs.filter (fun s => s.problem_id == pid && s.passed.isSome)).countP
      (fun s => s.passed == some true) = _
  rw [List.countP_filter, List.countP_eq_length_filter]
  congr 1
  apply List.filter_congr
  intro s _
  cases hp : s.passed with
  | none => simp
  | some b => simp [Bool.and_comm]

theorem lookupSched_upsert_mk (st : Store) (pid : String) (a b c : Nat) :
    lookupSched (upsert st ⟨pid, a, b, c⟩) pid = some ⟨pid, a, b, c⟩ :=
  lookupSched_upsert_self st _

/-- C8 counterexample: the source declares
`update_review_schedule(problem_id, success)` with no `today` parameter;
the current date is instead read inside the body via `date.today()`
(database.py line 201), so `today` is not supplied by the caller as an
explicit parameter. -/
theorem today_not_a_parameter : "today" ∉ updateReviewScheduleParams := by
  decide

/-- C8 (amended): the date is read from the system clock inside
`update_review_schedule`, not passed by the caller; modelling that
internal clock read as an explicit input, the update is deterministic:
equal prior record for the problem, equal success flag and equal date
give equal returned values and an equal stored record. -/
theorem update_deterministic (st1 st2 : Store) (pid : String) (success : Bool)
    (today : Nat) (h : lookupSched st1 pid = lookupSched st2 pid) :
    (update_review_schedule st1 pid success today).2 =
      (update_review_schedule st2 pid success today).2 ∧
    lookupSched (update_review_schedule st1 pid success today).1 pid =
      lookupSched (update_review_schedule st2 pid success today).1 pid := by
  constructor
  · show (today + nextInterval (lookupSched st1 pid) success,
      nextInterval (lookupSched st1 pid) success) =
      (today + nextInterval (lookupSched st2 pid) success,
      nextInterval (lookupSched st2 pid) success)
    rw [h]
  · calc lookupSched (update_review_schedule st1 pid success today).1 pid
        = some ⟨pid, today + nextInterval (lookupSched st1 pid) success,
            nextInterval (lookupSched st1 pid) success, today⟩ :=
          lookupSched_upsert_mk st1 pid _ _ _
      _ = some ⟨pid, today + nextInterval (lookupSched st2 pid) success,
            nextInterval (lookupSched st2 pid) success, today⟩ := by rw [h]
      _ = lookupSched (update_review_schedule st2 pid success today).1 pid :=
          (lookupSched_upsert_mk st2 pid _ _ _).symm

/-- C8 witness: two stores agreeing on problem "p" (both without a record
for it) give identical results and stored records on day 10. -/
theorem update_deterministic_witness :
    lookupSched [] "p" = lookupSched [Sched.mk "q" 5 3 4] "p" ∧
    ((update_review_schedule [] "p" true 10).2 =
      (update_review_schedule [Sched.mk "q" 5 3 4] "p" true 10).2 ∧
    lookupSched (update_review_schedule [] "p" true 10).1 "p" =
      lookupSched (update_review_schedule [Sched.mk "q" 5 3 4] "p" true 10).1 "p") :=
  ⟨by decide, update_deterministic [] [Sched.mk "q" 5 3 4] "p" true 10 (by decide)⟩

/-- C9: when the transaction body raises, `get_connection` rolls the store
back to its pre-transaction state and re-raises the same error unchanged
(no retry, no masking). -/
theorem store_errors_propagate {σ ε α : Type} (body : σ → Except ε (σ × α))
    (st : σ) (e : ε) (h : body st = .error e) :
    get_connection body st = (.error e, st) := by
  simp [get_connection, h]

/-- C9 witness: a body failing with "storage unavailable" on store 0
leaves the store at 0 and surfaces that exact error. -/
theorem store_errors_propagate_witness :
    (fun _ : Nat =>
      (Except.error "storage unavailable" : Except String (Nat × Unit))) 0 =
        Except.error "storage unavailable" ∧
    get_connection
      (fun _ : Nat =>
        (Except.error "storage unavailable" : Except String (Nat × Unit))) 0 =
      (Except.error "storage unavailable", 0) :=
  ⟨rfl, store_errors_propagate _ 0 _ rfl⟩
